import Mathlib

/-!
Verification development for the layouteditor-wrapper geometry engine
(`layouteditorwrapper/path.py`).

The Python code computes with numpy double-precision floats; here every
numeric quantity is modelled as a real number, so the theorems describe the
exact-arithmetic behaviour of the algorithms.  Numpy points (shape-(2,)
arrays) are modelled as pairs of reals with componentwise addition, which is
exactly numpy's array addition.  Numpy functions used by the source are
modelled as follows:

* angle and arctan2: both reduce to the principal-branch argument, modelled by
  `Complex.arg` (identical quadrant conventions, including `arg 0 = 0`);
* ceil / floor: `Int.ceil` / `Int.floor`;
* numpy round: round-half-to-even (`npRound` below);
* linspace: `linspace` below (numpy's endpoint-inclusive sampling; for a
  single sample numpy returns the start point, for zero samples the empty
  array, matching the definition here);
* linalg.norm / hypot on 2-vectors: square root of the sum of squares.

Python's silently-total behaviours (no input validation in `smooth_path` or
`Element.__init__`) are modelled by total functions returning the value the
Python code returns.
-/

/-- Points in the package format: a pair (x, y) of coordinates.  Addition is
componentwise, as for numpy arrays. -/
abbrev Point : Type := ℝ × ℝ

/-- The two-argument arctangent `np.arctan2 y x`, modelled as the complex
argument of x + y i; the quadrant conventions coincide, and both give 0 at the
origin. -/
noncomputable def atan2 (y x : ℝ) : ℝ := Complex.arg (Complex.mk x y)

/-- Numpy's `np.round`: round half to even. -/
noncomputable def npRound (x : ℝ) : ℤ :=
  if Int.fract x = 1 / 2 then (if Even ⌊x⌋ then ⌊x⌋ else ⌊x⌋ + 1) else round x

/-- Numpy's `np.linspace lo hi n` with endpoint=True: n samples
`lo + (hi - lo) * i / (n - 1)`.  For `n = 1` the junk-value convention
`x / 0 = 0` makes this `[lo]`, which is exactly numpy's single-sample
behaviour; `n = 0` gives the empty list. -/
noncomputable def linspace (lo hi : ℝ) (n : ℕ) : List ℝ :=
  (List.range n).map (fun (i : ℕ) => lo + (hi - lo) * (i : ℝ) / ((n : ℝ) - 1))

/-- Source `smooth_path`, lines 51-56: the signed angle at which the path
bends at a corner, `np.angle(inner + i * cross)`, lying in (-pi, pi]. -/
noncomputable def bendAngle (v w : Point) : ℝ :=
  atan2 (v.1 * w.2 - v.2 * w.1) (v.1 * w.1 + v.2 * w.2)

/-- Source `smooth_path`, line 66: the absolute angles of the new arc points,
`theta + pi + linspace (-bend_angle/2) (bend_angle/2) n`. -/
noncomputable def arcAngles (theta a : ℝ) (n : ℕ) : List ℝ :=
  (linspace (-(a / 2)) (a / 2) n).map (fun x => theta + Real.pi + x)

/-- Source lines 61-62: the absolute angle `theta` of the arc center seen from
the corner, `arctan2 b2c.y b2c.x + a/2 + sign a * pi/2`. -/
noncomputable def thetaOf (b2c : Point) (a : ℝ) : ℝ :=
  atan2 b2c.2 b2c.1 + a / 2 + Real.sign a * (Real.pi / 2)

/-- Source lines 59 and 64: the offset of the arc center relative to the
corner, `h * (cos theta, sin theta)` with `h = radius / cos (a/2)` the
corner-to-center distance. -/
noncomputable def offsetOf (radius a theta : ℝ) : Point :=
  (radius / Real.cos (a / 2) * Real.cos theta, radius / Real.cos (a / 2) * Real.sin theta)

/-- Body of the loop of `smooth_path` (source lines 51-72) for one interior
vertex: `none` when the three points are co-linear (|bend angle| = 0, the
vertex is dropped), otherwise the (bend, angle, corner, offset) data appended
to the four result lists. -/
noncomputable def smoothStep (radius ppr : ℝ) (t : Point × Point × Point) :
    Option (List Point × ℝ × Point × Point) :=
  let before := t.1
  let current := t.2.1
  let after := t.2.2
  let b2c : Point := current - before
  let c2a : Point := after - current
  let a := bendAngle b2c c2a
  if 0 < |a| then
    let theta := thetaOf b2c a
    let offset : Point := offsetOf radius a theta
    let n : ℕ := (⌈|a| * ppr⌉).toNat + 1
    let bend := (arcAngles theta a n).map
      (fun phi => current + offset + (radius * Real.cos phi, radius * Real.sin phi))
    some (bend, a, current, offset)
  else
    none

/-- Source line 51: the zip of `points[:-2]`, `points[1:-1]`, `points[2:]`
(zip truncates to the shortest, so plain drops suffice). -/
def tripleList (points : List Point) : List (Point × Point × Point) :=
  points.zip ((points.drop 1).zip (points.drop 2))

/-- The loop of `smooth_path`: each interior vertex contributes its
`smoothStep` data when not co-linear. -/
noncomputable def smoothItems (points : List Point) (radius ppr : ℝ) :
    List (List Point × ℝ × Point × Point) :=
  (tripleList points).filterMap (smoothStep radius ppr)

/-- Source `smooth_path` (lines 32-73): the four parallel lists
(bends, angles, corners, offsets). -/
noncomputable def smoothPath (points : List Point) (radius ppr : ℝ) :
    List (List Point) × List ℝ × List Point × List Point :=
  ((smoothItems points radius ppr).map (fun it => it.1),
   (smoothItems points radius ppr).map (fun it => it.2.1),
   (smoothItems points radius ppr).map (fun it => it.2.2.1),
   (smoothItems points radius ppr).map (fun it => it.2.2.2))

/-- Source `SmoothedElement.points` (lines 235-241): the start point, then
each bend's points in order, then the end point.  `self.start` / `self.end`
index into the stored point list; the (unreachable in the source's use) empty
case is totalised with the origin as default. -/
noncomputable def smoothedPoints (points : List Point) (radius ppr : ℝ) : List Point :=
  points.headD (0, 0) ::
    ((smoothItems points radius ppr).flatMap (fun it => it.1) ++ [points.getLastD (0, 0)])

/-- Source `from_increments` (lines 13-29): a list of points starting from the
origin and separated by the given increments, built by repeatedly appending
`points[-1] + increment`. -/
def fromIncrements (increments : List Point) (origin : Point) : List Point :=
  increments.foldl (fun ps inc => ps ++ [ps.getLastD (0, 0) + inc]) [origin]

/-- Source `Element.__init__` rounding (line 196): when `round_to` is given,
each coordinate is rounded to the nearest multiple (`round_to * np.round (p /
round_to)`, componentwise). -/
noncomputable def roundPoints (round_to : Option ℝ) (points : List Point) : List Point :=
  match round_to with
  | none => points
  | some g => points.map (fun p => (g * (npRound (p.1 / g) : ℝ), g * (npRound (p.2 / g) : ℝ)))

/-- Source `Element` (lines 191-224): the constructor stores the (possibly
rounded) points without any validation. -/
structure Element where
  outline : List Point
  round_to : Option ℝ

/-- Source line 197: the stored `_points`. -/
noncomputable def Element.pointsStored (e : Element) : List Point :=
  roundPoints e.round_to e.outline

/-- Back-end drawing commands recorded by a `Cell`; `Trace.draw` only uses
`add_path(points, layer, width)`. -/
inductive Cmd : Type
  | addPath (points : List Point) (layer : ℤ) (width : ℝ)

/-- Source `Trace` (lines 244-277): outline, width, overlaps, radius
(`none` means the default `2 * width`), points per radian, rounding. -/
structure Trace where
  outline : List Point
  width : ℝ
  start_overlap : ℝ
  end_overlap : ℝ
  radius : Option ℝ
  points_per_radian : ℝ
  round_to : Option ℝ

/-- Source lines 256-257: `radius` defaults to `2 * width`. -/
noncomputable def Trace.radiusVal (t : Trace) : ℝ :=
  t.radius.getD (2 * t.width)

/-- The `_points` stored by `Element.__init__` for a `Trace`. -/
noncomputable def Trace.pointsStored (t : Trace) : List Point :=
  roundPoints t.round_to t.outline

/-- Source `SmoothedElement.points` for a `Trace`: the smoothed point list. -/
noncomputable def Trace.points (t : Trace) : List Point :=
  smoothedPoints t.pointsStored t.radiusVal t.points_per_radian

/-- Source `Element.start` (line 205): `self._points[0]`. -/
noncomputable def Trace.startP (t : Trace) : Point :=
  t.pointsStored.headD (0, 0)

/-- Source `Element.end` (line 209): `self._points[-1]`. -/
noncomputable def Trace.endP (t : Trace) : Point :=
  t.pointsStored.getLastD (0, 0)

/-- Source `Element.length` (lines 219-221): the summed segment lengths
`np.sum (np.hypot (np.diff x) (np.diff y))` of `self.points` — the smoothed
points, since `SmoothedElement` overrides the `points` property. -/
noncomputable def polylineLength (ps : List Point) : ℝ :=
  ((ps.zip (ps.drop 1)).map
    (fun pq => Real.sqrt ((pq.2.1 - pq.1.1) ^ 2 + (pq.2.2 - pq.1.2) ^ 2))).sum

/-- Length of a `Trace` (inherited `Element.length` over the smoothed points). -/
noncomputable def Trace.length (t : Trace) : ℝ :=
  polylineLength t.points

/-- Source lines 267-270: the two points of the start-overlap path, continuing
from `points[0]` in the direction of `points[0] - points[1]`. -/
noncomputable def startOverlapPoints (t : Trace) (points : List Point) : List Point :=
  let p0 := points.getD 0 (0, 0)
  let p1 := points.getD 1 (0, 0)
  let v : Point := p0 - p1
  let phi := atan2 v.2 v.1
  [p0, p0 + (t.start_overlap * Real.cos phi, t.start_overlap * Real.sin phi)]

/-- Source lines 273-276: the two points of the end-overlap path, continuing
from `points[-1]` in the direction of `points[-1] - points[-2]`. -/
noncomputable def endOverlapPoints (t : Trace) (points : List Point) : List Point :=
  let pLast := points.getLastD (0, 0)
  let pPrev := points.dropLast.getLastD (0, 0)
  let v : Point := pLast - pPrev
  let phi := atan2 v.2 v.1
  [pLast, pLast + (t.end_overlap * Real.cos phi, t.end_overlap * Real.sin phi)]

/-- Source `Trace.draw` (lines 261-277): translate the smoothed points by the
origin, add the main path on the result layer, then (only) when an overlap is
positive add the corresponding two-point overlap path.  The positive and
negative layers are unused by `Trace.draw`, as in the source. -/
noncomputable def Trace.draw (t : Trace) (cell : List Cmd) (origin : Point)
    (positive_layer negative_layer result_layer : ℤ) : List Cmd :=
  let pts := t.points.map (fun p => origin + p)
  let cell1 := cell ++ [Cmd.addPath pts result_layer t.width]
  let cell2 :=
    if 0 < t.start_overlap then
      cell1 ++ [Cmd.addPath (startOverlapPoints t pts) result_layer t.width]
    else cell1
  if 0 < t.end_overlap then
    cell2 ++ [Cmd.addPath (endOverlapPoints t pts) result_layer t.width]
  else cell2

/-- Loop of source `Path.draw` (lines 169-172): draw each element at the
running point, then advance the point by the element's own (local-frame) end. -/
noncomputable def pathDrawGo (elements : List Trace) (cell : List Cmd) (point : Point)
    (positive_layer negative_layer result_layer : ℤ) : List Cmd :=
  match elements with
  | [] => cell
  | e :: rest =>
      pathDrawGo rest (e.draw cell point positive_layer negative_layer result_layer)
        (point + e.endP) positive_layer negative_layer result_layer

/-- Source `Path.draw` (lines 155-172): copy the caller's origin into the
running point, then run the loop. -/
noncomputable def pathDraw (elements : List Trace) (cell : List Cmd) (origin : Point)
    (positive_layer negative_layer result_layer : ℤ) : List Cmd :=
  pathDrawGo elements cell origin positive_layer negative_layer result_layer

/-- Cumulative draw origins: the origin for element i is the caller's origin
advanced by the sum of the ends of elements 0..i-1 (`List.scanl`); zipping
with the element list pairs each element with the origin it is drawn at. -/
noncomputable def drawOrigins (elements : List Trace) (origin : Point) : List Point :=
  List.scanl (fun a b => a + b) origin (elements.map Trace.endP)

/-- Source `Mesh.path_mesh` column layout (lines 94-100), shared with
`trapezoid_mesh` (lines 132-138): `floor (length / spacing)` columns; none if
the segment is shorter than one spacing, a single centred column if exactly
one fits, otherwise evenly spaced columns inset by half a spacing. -/
noncomputable def meshColumns (length spacing : ℝ) : List ℝ :=
  let n : ℤ := ⌊length / spacing⌋
  if n = 0 then []
  else if n = 1 then [length / 2]
  else linspace (spacing / 2) (length - spacing / 2) n.toNat

/-- Numpy `meshgrid(X, Y)` followed by flattening both coordinate arrays and
pairing them up: all pairs (X j, Y i), iterated Y-major. -/
def meshGridPoints (X Y : List ℝ) : List Point :=
  Y.flatMap (fun y => X.map (fun x => (x, y)))

/-- Source `path_mesh` lines 94-102, in the straight segment's local frame:
the grid of hole centers, with the duplicated column array and the row array
concatenated with its mirror image, exactly as
`np.meshgrid (np.concatenate (x, x)) (np.concatenate (y, -y))`. -/
noncomputable def straightLocalMesh (length spacing c2fr : ℝ) (rows : ℕ) : List Point :=
  let x := meshColumns length spacing
  let y := (List.range rows).map (fun (i : ℕ) => c2fr + spacing * (i : ℝ))
  meshGridPoints (x ++ x) (y ++ y.map (fun t => -t))

/-- Rotation by angle phi (the matrix R of source lines 92-93). -/
noncomputable def rotate (phi : ℝ) (p : Point) : Point :=
  (Real.cos phi * p.1 - Real.sin phi * p.2, Real.sin phi * p.1 + Real.cos phi * p.2)

/-- Source `path_mesh` straight-segment loop body (lines 88-104): local grid
points rotated into the segment's frame and translated to its start. -/
noncomputable def pathMeshStraight (start stop : Point) (spacing c2fr : ℝ) (rows : ℕ) :
    List Point :=
  let v : Point := stop - start
  let length := Real.sqrt (v.1 ^ 2 + v.2 ^ 2)
  let phi := atan2 v.2 v.1
  (straightLocalMesh length spacing c2fr rows).map (fun p => start + rotate phi p)

/-- Source `path_mesh` curved-section inner extend (lines 112-120): the points
contributed for one (arc, row, candidate radius) combination.  The count is
`np.round (radius * |angle| / spacing)`; when it is zero the linspace is empty
regardless of `max_angle` (in numpy `1/0 = inf` only feeds an empty sample
list, so the junk value `1/0 = 0` used here yields the same, empty, output). -/
noncomputable def curvedArcPoints (spacing radius angle : ℝ) (corner offset : Point) :
    List Point :=
  let n : ℤ := npRound (radius * |angle| / spacing)
  let maxAngle : ℝ := if n = 1 then 0 else (1 - 1 / (n : ℝ)) * angle / 2
  ((linspace (-maxAngle) maxAngle n.toNat).map (fun x => atan2 (-offset.2) (-offset.1) + x)).map
    (fun phi => corner + offset + (radius * Real.cos phi, radius * Real.sin phi))

/-- Source `path_mesh` curved-section loops (lines 106-120): rows, then the
two candidate radii (skipping any radius below half a spacing), then arcs. -/
noncomputable def pathMeshCurved (spacing arcRadius c2fr : ℝ) (rows : ℕ)
    (arcs : List (ℝ × Point × Point)) : List Point :=
  (List.range rows).flatMap (fun row =>
    let c2r := c2fr + (row : ℝ) * spacing
    [arcRadius - c2r, arcRadius + c2r].flatMap (fun radius =>
      if radius < spacing / 2 then []
      else arcs.flatMap (fun aco => curvedArcPoints spacing radius aco.1 aco.2.1 aco.2.2)))

/-- Source `Mesh.path_mesh` (lines 82-121) with the element's attributes as
parameters: straight sections run between the path start, consecutive bends'
end/start points, and the path end; then the curved sections. -/
noncomputable def pathMesh (startP endP : Point) (bends : List (List Point))
    (angles : List ℝ) (corners offsets : List Point)
    (width gap mesh_border mesh_spacing radius : ℝ) (num_mesh_rows : ℕ) : List Point :=
  let c2fr := width / 2 + gap + mesh_border
  let starts := startP :: bends.map (fun b => b.getLastD (0, 0))
  let stops := bends.map (fun b => b.headD (0, 0)) ++ [endP]
  (starts.zip stops).flatMap
      (fun se => pathMeshStraight se.1 se.2 mesh_spacing c2fr num_mesh_rows)
    ++ pathMeshCurved mesh_spacing radius c2fr num_mesh_rows
         (angles.zip (corners.zip offsets))

/-- Source `Mesh.trapezoid_mesh` (lines 123-147) in the local frame: columns
as for straight sections; the row offset interpolates linearly along the
segment (`y_shift = start_to_first_row + difference_to_first_row * x /
length`, added to each row), and the mirrored rows are the negated copies. -/
noncomputable def trapezoidLocalMesh (length spacing s2fr diff : ℝ) (rows : ℕ) :
    List Point :=
  let x := meshColumns length spacing
  let pts := (List.range rows).flatMap (fun (i : ℕ) =>
    x.map (fun xj => (xj, spacing * (i : ℝ) + (s2fr + diff * xj / length))))
  pts ++ pts.map (fun p => (p.1, -p.2))

/-- Source `Mesh.trapezoid_mesh` (lines 123-147): the local grid rotated into
the segment's frame and translated to its start. -/
noncomputable def trapezoidMesh (start stop : Point) (spacing s2fr e2fr : ℝ) (rows : ℕ) :
    List Point :=
  let v : Point := stop - start
  let length := Real.sqrt (v.1 ^ 2 + v.2 ^ 2)
  let phi := atan2 v.2 v.1
  (trapezoidLocalMesh length spacing s2fr (e2fr - s2fr) rows).map
    (fun p => start + rotate phi p)

/-- Heap of numpy arrays, for the aliasing-sensitive reading of `Path.draw`:
Python variables hold references (indices) into the heap; `wrapper.to_point`
allocates a fresh array, and `point + element.end` also allocates.  No
operation of `Path.draw` writes to an existing heap cell. -/
abbrev Heap : Type := List Point

/-- Dereference a heap index (valid references are always in range). -/
def readH (h : Heap) (i : ℕ) : Point := h.getD i (0, 0)

/-- Allocate a fresh array holding `p`, returning the new heap and the
reference. -/
def allocH (h : Heap) (p : Point) : Heap × ℕ := (h ++ [p], h.length)

/-- Loop of `Path.draw` in the heap model: `element.draw` reads the running
point (and, like the source's `Trace.draw`, copies rather than mutates it);
`point = point + element.end` allocates a fresh array for the new value. -/
noncomputable def pathDrawRefGo (elements : List Trace) (h : Heap) (ptRef : ℕ)
    (cell : List Cmd) (positive_layer negative_layer result_layer : ℤ) :
    Heap × List Cmd :=
  match elements with
  | [] => (h, cell)
  | e :: rest =>
      let cell1 := e.draw cell (readH h ptRef) positive_layer negative_layer result_layer
      let hr := allocH h (readH h ptRef + e.endP)
      pathDrawRefGo rest hr.1 hr.2 cell1 positive_layer negative_layer result_layer

/-- Source `Path.draw` (lines 155-172) in the heap model: line 168
(`point = wrapper.to_point origin`) copies the caller's array into a fresh
allocation before the loop runs. -/
noncomputable def pathDrawRef (elements : List Trace) (h : Heap) (originRef : ℕ)
    (cell : List Cmd) (positive_layer negative_layer result_layer : ℤ) :
    Heap × List Cmd :=
  let hr := allocH h (readH h originRef)
  pathDrawRefGo elements hr.1 hr.2 cell positive_layer negative_layer result_layer

/-- Unit tangent of the arc parametrization `phi => center + radius * (cos
phi, sin phi)` used in `smooth_path` line 68, in the direction of increasing
`phi` — the traversal order of the sampled arc angles for a positive bend
angle. -/
noncomputable def unitTangent (phi : ℝ) : Point := (-Real.sin phi, Real.cos phi)

theorem linspace_length (lo hi : ℝ) (n : ℕ) : (linspace lo hi n).length = n := by
  simp [linspace]

theorem linspace_head? (lo hi : ℝ) (n : ℕ) (h : 0 < n) :
    (linspace lo hi n).head? = some lo := by
  rw [linspace, List.head?_map, List.head?_eq_getElem?, List.getElem?_range h]
  simp

theorem linspace_getLast? (lo hi : ℝ) (n : ℕ) (h : 2 ≤ n) :
    (linspace lo hi n).getLast? = some hi := by
  rw [linspace, List.getLast?_map]
  have hn : 0 < n := by omega
  have hr : (List.range n).getLast? = some (n - 1) := by
    rw [List.getLast?_eq_getElem?, List.length_range, List.getElem?_range (by omega)]
  rw [hr]
  have hne : ((n : ℝ) - 1) ≠ 0 := by
    have : (2 : ℝ) ≤ (n : ℝ) := by exact_mod_cast h
    intro hc
    nlinarith
  have hcast : ((n - 1 : ℕ) : ℝ) = (n : ℝ) - 1 := by
    have : (1 : ℕ) ≤ n := by omega
    push_cast [this]
    ring
  simp only [Option.map_some']
  congr 1
  rw [hcast, mul_div_assoc, div_self hne]
  ring

theorem complex_mk_re (x y : ℝ) : (Complex.mk x y).re = x := rfl

theorem complex_mk_im (x y : ℝ) : (Complex.mk x y).im = y := rfl

theorem atan2_zero_of_nonneg (x : ℝ) (hx : 0 ≤ x) : atan2 0 x = 0 := by
  rw [atan2, Complex.arg_eq_zero_iff]
  exact ⟨hx, rfl⟩

theorem atan2_of_pos_up (y : ℝ) (hy : 0 < y) : atan2 y 0 = Real.pi / 2 := by
  rw [atan2, Complex.arg_eq_pi_div_two_iff]
  exact ⟨rfl, hy⟩

theorem fromIncrements_fold_aux (incs : List Point) :
    ∀ (ps : List Point) (q : Point),
      incs.foldl (fun ps inc => ps ++ [ps.getLastD (0, 0) + inc]) (ps ++ [q])
        = ps ++ List.scanl (fun a b => a + b) q incs := by
  induction incs with
  | nil => intro ps q; simp [List.scanl_nil]
  | cons inc rest ih =>
      intro ps q
      rw [List.foldl_cons, List.getLastD_concat, List.append_assoc]
      rw [show ([q] ++ [q + inc] : List Point) = [q] ++ [q + inc] from rfl]
      rw [← List.append_assoc]
      rw [ih (ps ++ [q]) (q + inc)]
      rw [List.append_assoc, List.scanl_cons]

theorem fromIncrements_eq_scanl (incs : List Point) (origin : Point) :
    fromIncrements incs origin = List.scanl (fun a b => a + b) origin incs := by
  have := fromIncrements_fold_aux incs [] origin
  simpa [fromIncrements] using this

theorem scanl_add_getD_zero (l : List Point) (b : Point) :
    (List.scanl (fun a c => a + c) b l).getD 0 (0, 0) = b := by
  cases l <;> simp [List.scanl_nil, List.scanl_cons]

theorem scanl_add_getD_succ (l : List Point) :
    ∀ (b : Point) (k : ℕ), k < l.length →
      (List.scanl (fun a c => a + c) b l).getD (k + 1) (0, 0)
        = (List.scanl (fun a c => a + c) b l).getD k (0, 0) + l.getD k (0, 0) := by
  induction l with
  | nil => intro b k hk; simp at hk
  | cons a l ih =>
      intro b k hk
      rw [List.scanl_cons]
      cases k with
      | zero =>
          simp only [List.singleton_append, List.getD_cons_succ, List.getD_cons_zero]
          rw [scanl_add_getD_zero]
      | succ k =>
          simp only [List.singleton_append, List.getD_cons_succ]
          exact ih (b + a) k (by simpa using hk)

/-- Claim C8: `from_increments [(200,0),(0,300)]` with origin (100,0) equals
exactly [(100,0),(300,0),(300,300)]; in general the result starts at the
origin, has length one more than the increment list, and each successive point
is the previous point plus the corresponding increment. -/
theorem from_increments_spec :
    fromIncrements [((200 : ℝ), (0 : ℝ)), (0, 300)] ((100 : ℝ), (0 : ℝ))
        = [(100, 0), (300, 0), (300, 300)] ∧
    ∀ (increments : List Point) (origin : Point),
      (fromIncrements increments origin).length = increments.length + 1 ∧
      (fromIncrements increments origin).getD 0 (0, 0) = origin ∧
      ∀ k, k < increments.length →
        (fromIncrements increments origin).getD (k + 1) (0, 0)
          = (fromIncrements increments origin).getD k (0, 0) + increments.getD k (0, 0) := by
  constructor
  · norm_num [fromIncrements, Prod.ext_iff]
  · intro increments origin
    rw [fromIncrements_eq_scanl]
    refine ⟨by rw [List.length_scanl], scanl_add_getD_zero _ _, ?_⟩
    intro k hk
    exact scanl_add_getD_succ increments origin k hk

/-- Witness for claim C8 at a concrete index: the hypothesis k < length holds
at k = 0 for the example increment list. -/
theorem from_increments_spec_witness :
    0 < ([((200 : ℝ), (0 : ℝ)), (0, 300)] : List Point).length ∧
    (fromIncrements [((200 : ℝ), (0 : ℝ)), (0, 300)] ((100 : ℝ), (0 : ℝ))).getD 1 (0, 0)
      = (fromIncrements [((200 : ℝ), (0 : ℝ)), (0, 300)] ((100 : ℝ), (0 : ℝ))).getD 0 (0, 0)
        + ([((200 : ℝ), (0 : ℝ)), (0, 300)] : List Point).getD 0 (0, 0) :=
  ⟨by norm_num,
   (from_increments_spec.2 [((200 : ℝ), (0 : ℝ)), (0, 300)] ((100 : ℝ), (0 : ℝ))).2.2 0
     (by norm_num)⟩

/-- Claim C5: a `Trace`'s start, end and length do not depend on its overlap
parameters (they are computed from the stored outline and the smoothed points
only), and drawing a trace with overlaps emits exactly the commands of the
overlap-free trace followed by the optional start- and end-overlap paths. -/
theorem trace_overlap_independent
    (outline : List Point) (w o1 o2 : ℝ) (rad : Option ℝ) (ppr : ℝ) (rt : Option ℝ)
    (cell : List Cmd) (origin : Point) (p n r : ℤ) :
    Trace.startP ⟨outline, w, o1, o2, rad, ppr, rt⟩
        = Trace.startP ⟨outline, w, 0, 0, rad, ppr, rt⟩ ∧
    Trace.endP ⟨outline, w, o1, o2, rad, ppr, rt⟩
        = Trace.endP ⟨outline, w, 0, 0, rad, ppr, rt⟩ ∧
    Trace.length ⟨outline, w, o1, o2, rad, ppr, rt⟩
        = Trace.length ⟨outline, w, 0, 0, rad, ppr, rt⟩ ∧
    Trace.draw ⟨outline, w, o1, o2, rad, ppr, rt⟩ cell origin p n r
      = Trace.draw ⟨outline, w, 0, 0, rad, ppr, rt⟩ cell origin p n r
        ++ (if 0 < o1 then
              [Cmd.addPath (startOverlapPoints ⟨outline, w, o1, o2, rad, ppr, rt⟩
                ((Trace.points ⟨outline, w, o1, o2, rad, ppr, rt⟩).map (fun q => origin + q)))
                r w]
            else [])
        ++ (if 0 < o2 then
              [Cmd.addPath (endOverlapPoints ⟨outline, w, o1, o2, rad, ppr, rt⟩
                ((Trace.points ⟨outline, w, o1, o2, rad, ppr, rt⟩).map (fun q => origin + q)))
                r w]
            else []) := by
  refine ⟨rfl, rfl, rfl, ?_⟩
  have hpts : Trace.points ⟨outline, w, o1, o2, rad, ppr, rt⟩
      = Trace.points ⟨outline, w, 0, 0, rad, ppr, rt⟩ := rfl
  simp only [Trace.draw]
  rw [if_neg (lt_irrefl (0 : ℝ)), if_neg (lt_irrefl (0 : ℝ))]
  split_ifs <;> simp [List.append_assoc, hpts]

theorem pathDrawGo_eq_foldl (es : List Trace) :
    ∀ (cell : List Cmd) (point : Point) (p n r : ℤ),
      pathDrawGo es cell point p n r
        = (es.zip (List.scanl (fun a b => a + b) point (es.map Trace.endP))).foldl
            (fun c eo => Trace.draw eo.1 c eo.2 p n r) cell := by
  induction es with
  | nil => intro cell point p n r; simp [pathDrawGo]
  | cons e rest ih =>
      intro cell point p n r
      rw [pathDrawGo, List.map_cons, List.scanl_cons, List.singleton_append,
        List.zip_cons_cons, List.foldl_cons]
      exact ih _ _ _ _ _

/-- Claim C4: `Path.draw` draws element i at the caller's origin advanced by
the cumulative sum of the local-frame end points of the preceding elements
(`drawOrigins` is that scan); concretely, two traces with outlines
[(0,0),(100,0)] and [(0,0),(0,50)] drawn at (10,10) produce paths
[(10,10),(110,10)] and [(110,10),(110,60)], the second element starting at
(110,10). -/
theorem path_draw_chaining :
    (∀ (es : List Trace) (cell : List Cmd) (origin : Point) (p n r : ℤ),
        pathDraw es cell origin p n r
          = (es.zip (drawOrigins es origin)).foldl
              (fun c eo => Trace.draw eo.1 c eo.2 p n r) cell) ∧
    pathDraw [⟨[(0, 0), (100, 0)], 1, 0, 0, none, 60, none⟩,
              ⟨[(0, 0), (0, 50)], 1, 0, 0, none, 60, none⟩] [] ((10 : ℝ), (10 : ℝ)) 1 2 3
      = [Cmd.addPath [((10 : ℝ), (10 : ℝ)), (110, 10)] 3 1,
         Cmd.addPath [((110 : ℝ), (10 : ℝ)), (110, 60)] 3 1] ∧
    (drawOrigins [⟨[(0, 0), (100, 0)], 1, 0, 0, none, 60, none⟩,
                  ⟨[(0, 0), (0, 50)], 1, 0, 0, none, 60, none⟩] ((10 : ℝ), (10 : ℝ))).getD 1
        (0, 0)
      = (110, 10) := by
  refine ⟨?_, ?_, ?_⟩
  · intro es cell origin p n r
    rw [pathDraw, drawOrigins]
    exact pathDrawGo_eq_foldl es cell origin p n r
  · norm_num [pathDraw, pathDrawGo, Trace.draw, Trace.points, Trace.pointsStored,
      Trace.radiusVal, Trace.endP, roundPoints, smoothedPoints, smoothItems, tripleList,
      Prod.ext_iff]
  · norm_num [drawOrigins, Trace.endP, Trace.pointsStored, roundPoints, Prod.ext_iff]

theorem pathDrawRefGo_heap_extends (es : List Trace) :
    ∀ (h : Heap) (ptRef : ℕ) (cell : List Cmd) (p n r : ℤ),
      ∃ t : List Point, (pathDrawRefGo es h ptRef cell p n r).1 = h ++ t := by
  induction es with
  | nil => intro h ptRef cell p n r; exact ⟨[], by simp [pathDrawRefGo]⟩
  | cons e rest ih =>
      intro h ptRef cell p n r
      rw [pathDrawRefGo]
      obtain ⟨t, ht⟩ := ih (h ++ [readH h ptRef + e.endP]) (h.length)
        (e.draw cell (readH h ptRef) p n r) p n r
      refine ⟨[readH h ptRef + e.endP] ++ t, ?_⟩
      simp only [allocH]
      rw [ht, List.append_assoc]

theorem readH_append_of_lt (h : Heap) (t : List Point) (i : ℕ) (hi : i < h.length) :
    readH (h ++ t) i = readH h i := by
  rw [readH, readH]
  exact List.getD_append _ _ _ _ hi

theorem readH_append_self (h : Heap) (v : Point) : readH (h ++ [v]) h.length = v := by
  simp [readH, List.getD, List.getElem?_append_right]

theorem pathDrawRefGo_cell (es : List Trace) :
    ∀ (h : Heap) (ptRef : ℕ) (cell : List Cmd) (p n r : ℤ), ptRef < h.length →
      (pathDrawRefGo es h ptRef cell p n r).2
        = pathDrawGo es cell (readH h ptRef) p n r := by
  induction es with
  | nil => intro h ptRef cell p n r _; rfl
  | cons e rest ih =>
      intro h ptRef cell p n r hlt
      rw [pathDrawRefGo, pathDrawGo, allocH]
      have hlt' : h.length < (h ++ [readH h ptRef + e.endP]).length := by
        simp
      rw [ih _ _ _ _ _ _ hlt', readH_append_self]

/-- Claim C9: `Path.draw` never mutates the caller-supplied origin array.  In
the heap model, for every valid origin reference and every element list the
origin's heap cell holds the same value after the call (the copy at source
line 168 and the non-mutating advance at line 172 only allocate), and the
emitted commands agree with the value-level `pathDraw` at the origin's value. -/
theorem path_draw_preserves_origin (es : List Trace) (h : Heap) (originRef : ℕ)
    (cell : List Cmd) (p n r : ℤ) (hv : originRef < h.length) :
    readH (pathDrawRef es h originRef cell p n r).1 originRef = readH h originRef ∧
    (pathDrawRef es h originRef cell p n r).2
      = pathDraw es cell (readH h originRef) p n r := by
  rw [pathDrawRef, allocH]
  constructor
  · obtain ⟨t, ht⟩ := pathDrawRefGo_heap_extends es (h ++ [readH h originRef]) h.length
      cell p n r
    rw [ht, List.append_assoc, readH_append_of_lt _ _ _ hv]
  · have hlt' : h.length < (h ++ [readH h originRef]).length := by simp
    rw [pathDrawRefGo_cell _ _ _ _ _ _ _ hlt', readH_append_self, pathDraw]

/-- Witness for claim C9: a concrete one-cell heap with a valid origin
reference and a single-trace path. -/
theorem path_draw_preserves_origin_witness :
    0 < ([((1 : ℝ), (2 : ℝ))] : Heap).length ∧
    (readH (pathDrawRef [⟨[(0, 0), (3, 0)], 1, 0, 0, none, 60, none⟩]
          [((1 : ℝ), (2 : ℝ))] 0 [] 1 2 3).1 0
        = readH [((1 : ℝ), (2 : ℝ))] 0 ∧
      (pathDrawRef [⟨[(0, 0), (3, 0)], 1, 0, 0, none, 60, none⟩]
          [((1 : ℝ), (2 : ℝ))] 0 [] 1 2 3).2
        = pathDraw [⟨[(0, 0), (3, 0)], 1, 0, 0, none, 60, none⟩] []
            (readH [((1 : ℝ), (2 : ℝ))] 0) 1 2 3) :=
  ⟨by norm_num,
   path_draw_preserves_origin [⟨[(0, 0), (3, 0)], 1, 0, 0, none, 60, none⟩]
     [((1 : ℝ), (2 : ℝ))] 0 [] 1 2 3 (by norm_num)⟩

/-- Claim C7: every hole center generated in a segment's local frame (x
along the segment, y across it) has a mirror image at (x, -y): the straight
sections of `path_mesh` use the row array concatenated with its negation, and
`trapezoid_mesh` appends the negated copy of its upper grid. -/
theorem mesh_row_symmetry :
    (∀ (length spacing c2fr : ℝ) (rows : ℕ) (pt : Point),
        pt ∈ straightLocalMesh length spacing c2fr rows →
        (pt.1, -pt.2) ∈ straightLocalMesh length spacing c2fr rows) ∧
    (∀ (length spacing s2fr diff : ℝ) (rows : ℕ) (pt : Point),
        pt ∈ trapezoidLocalMesh length spacing s2fr diff rows →
        (pt.1, -pt.2) ∈ trapezoidLocalMesh length spacing s2fr diff rows) := by
  constructor
  · intro length spacing c2fr rows pt hpt
    simp only [straightLocalMesh, meshGridPoints, List.mem_flatMap, List.mem_map] at hpt ⊢
    obtain ⟨y, hy, x, hx, rfl⟩ := hpt
    refine ⟨-y, ?_, x, hx, rfl⟩
    rcases List.mem_append.mp hy with h | h
    · exact List.mem_append.mpr (Or.inr (List.mem_map.mpr ⟨y, h, rfl⟩))
    · obtain ⟨t, ht, rfl⟩ := List.mem_map.mp h
      exact List.mem_append.mpr (Or.inl (by simpa using ht))
  · intro length spacing s2fr diff rows pt hpt
    simp only [trapezoidLocalMesh] at hpt ⊢
    rcases List.mem_append.mp hpt with h | h
    · exact List.mem_append.mpr (Or.inr (List.mem_map.mpr ⟨pt, h, rfl⟩))
    · obtain ⟨q, hq, rfl⟩ := List.mem_map.mp h
      refine List.mem_append.mpr (Or.inl ?_)
      simpa [Prod.mk.eta] using hq

/-- Witness for claim C7: a concrete hole center of each local pattern and its
mirror image. -/
theorem mesh_row_symmetry_witness :
    ((((1 : ℝ) / 2, (2 : ℝ)) ∈ straightLocalMesh 1 1 2 1 ∧
      ((1 : ℝ) / 2, -(2 : ℝ)) ∈ straightLocalMesh 1 1 2 1) ∧
     (((1 : ℝ) / 2, (1 : ℝ)) ∈ trapezoidLocalMesh 1 1 1 0 1 ∧
      ((1 : ℝ) / 2, -(1 : ℝ)) ∈ trapezoidLocalMesh 1 1 1 0 1)) := by
  have hs : (((1 : ℝ) / 2, (2 : ℝ)) : Point) ∈ straightLocalMesh 1 1 2 1 := by
    norm_num [straightLocalMesh, meshColumns, meshGridPoints, List.range_succ]
  have ht : (((1 : ℝ) / 2, (1 : ℝ)) : Point) ∈ trapezoidLocalMesh 1 1 1 0 1 := by
    norm_num [trapezoidLocalMesh, meshColumns, List.range_succ]
  exact ⟨⟨hs, by simpa using mesh_row_symmetry.1 1 1 2 1 ((1 : ℝ) / 2, (2 : ℝ)) hs⟩,
         ⟨ht, by simpa using mesh_row_symmetry.2 1 1 1 0 1 ((1 : ℝ) / 2, (1 : ℝ)) ht⟩⟩

/-- Claim C10: in the curved-section loop of `path_mesh`, a candidate radius
of at least half the mesh spacing whose rounded point count is zero
contributes no points (the empty linspace) and raises no error; a non-empty
contribution forces a count of at least one, and a count of exactly one is a
single point at the arc's bisecting angle. -/
theorem curved_mesh_zero_count (spacing radius angle : ℝ) (corner offset : Point)
    (hr : spacing / 2 ≤ radius) :
    (npRound (radius * |angle| / spacing) = 0 →
       curvedArcPoints spacing radius angle corner offset = []) ∧
    (curvedArcPoints spacing radius angle corner offset ≠ [] →
       1 ≤ npRound (radius * |angle| / spacing)) ∧
    (npRound (radius * |angle| / spacing) = 1 →
       curvedArcPoints spacing radius angle corner offset
         = [corner + offset +
             (radius * Real.cos (atan2 (-offset.2) (-offset.1)),
              radius * Real.sin (atan2 (-offset.2) (-offset.1)))]) := by
  refine ⟨?_, ?_, ?_⟩
  · intro h0
    simp [curvedArcPoints, h0, linspace]
  · intro hne
    by_contra hlt
    push_neg at hlt
    apply hne
    have h0 : (npRound (radius * |angle| / spacing)).toNat = 0 := by omega
    simp [curvedArcPoints, h0, linspace]
  · intro h1
    simp only [curvedArcPoints, h1]
    norm_num [linspace, List.range_succ]

/-- Witness for claim C10: concrete parameters with the radius at least half
the spacing. -/
theorem curved_mesh_zero_count_witness :
    ((1 : ℝ) / 2 ≤ (1 : ℝ)) ∧
    ((npRound ((1 : ℝ) * |(0 : ℝ)| / 1) = 0 →
        curvedArcPoints 1 1 0 ((0 : ℝ), (0 : ℝ)) ((1 : ℝ), (0 : ℝ)) = []) ∧
     (curvedArcPoints 1 1 0 ((0 : ℝ), (0 : ℝ)) ((1 : ℝ), (0 : ℝ)) ≠ [] →
        1 ≤ npRound ((1 : ℝ) * |(0 : ℝ)| / 1)) ∧
     (npRound ((1 : ℝ) * |(0 : ℝ)| / 1) = 1 →
        curvedArcPoints 1 1 0 ((0 : ℝ), (0 : ℝ)) ((1 : ℝ), (0 : ℝ))
          = [((0 : ℝ), (0 : ℝ)) + ((1 : ℝ), (0 : ℝ)) +
              ((1 : ℝ) * Real.cos (atan2 (-((1 : ℝ), (0 : ℝ)).2) (-((1 : ℝ), (0 : ℝ)).1)),
               (1 : ℝ) * Real.sin (atan2 (-((1 : ℝ), (0 : ℝ)).2) (-((1 : ℝ), (0 : ℝ)).1)))])) :=
  ⟨by norm_num, curved_mesh_zero_count 1 1 0 ((0 : ℝ), (0 : ℝ)) ((1 : ℝ), (0 : ℝ)) (by norm_num)⟩

theorem atan2_zero_zero : atan2 0 0 = 0 := atan2_zero_of_nonneg 0 le_rfl

theorem smoothStep_self_before (radius ppr : ℝ) (p q : Point) :
    smoothStep radius ppr (p, p, q) = none := by
  have h : bendAngle (p - p) (q - p) = 0 := by
    rw [bendAngle]
    simp [Prod.fst_sub, Prod.snd_sub, sub_self, atan2_zero_zero]
  simp only [smoothStep]
  rw [h]
  simp

theorem smoothStep_self_after (radius ppr : ℝ) (p q : Point) :
    smoothStep radius ppr (p, q, q) = none := by
  have h : bendAngle (q - p) (q - q) = 0 := by
    rw [bendAngle]
    simp [Prod.fst_sub, Prod.snd_sub, sub_self, atan2_zero_zero]
  simp only [smoothStep]
  rw [h]
  simp

/-- Counterexample for claim C6: `smooth_path` on fewer than 2 points and on a
path whose first segment has zero length returns four empty lists silently,
and `Element` construction with a single point succeeds and stores it; no
error is raised anywhere. -/
theorem degenerate_input_counterexample :
    smoothPath [] 1 1 = ([], [], [], []) ∧
    smoothPath [((0 : ℝ), (0 : ℝ)), ((0 : ℝ), (0 : ℝ)), ((1 : ℝ), (0 : ℝ))] 1 1
      = ([], [], [], []) ∧
    Element.pointsStored ⟨[((0 : ℝ), (0 : ℝ))], none⟩ = [((0 : ℝ), (0 : ℝ))] := by
  refine ⟨by simp [smoothPath, smoothItems, tripleList], ?_, rfl⟩
  simp [smoothPath, smoothItems, tripleList, smoothStep_self_before]

/-- Claim C6 (amended): `smooth_path` and `Element` construction perform no
input validation and raise no error: with fewer than 3 points `smooth_path`
returns four empty lists, a zero-length first or last segment makes the
adjacent vertex's turn angle evaluate to atan2(0,0) = 0 so the vertex is
silently dropped, and the `Element` constructor stores whatever points it is
given. -/
theorem degenerate_input_amended (radius ppr : ℝ) (p q : Point) (ps : List Point) :
    smoothPath [] radius ppr = ([], [], [], []) ∧
    smoothPath [p] radius ppr = ([], [], [], []) ∧
    smoothPath [p, q] radius ppr = ([], [], [], []) ∧
    smoothStep radius ppr (p, p, q) = none ∧
    smoothStep radius ppr (p, q, q) = none ∧
    Element.pointsStored ⟨ps, none⟩ = ps := by
  refine ⟨?_, ?_, ?_, smoothStep_self_before radius ppr p q,
    smoothStep_self_after radius ppr p q, rfl⟩
  · simp [smoothPath, smoothItems, tripleList]
  · simp [smoothPath, smoothItems, tripleList]
  · simp [smoothPath, smoothItems, tripleList]

theorem smoothStep_collinear (before current after : Point) (radius ppr : ℝ)
    (hcross : (current - before).1 * (after - current).2
        - (current - before).2 * (after - current).1 = 0)
    (hdot : 0 ≤ (current - before).1 * (after - current).1
        + (current - before).2 * (after - current).2) :
    smoothStep radius ppr (before, current, after) = none := by
  have hangle : bendAngle (current - before) (after - current) = 0 := by
    rw [bendAngle, hcross]
    exact atan2_zero_of_nonneg _ hdot
  simp only [smoothStep]
  rw [hangle]
  simp

/-- Counterexample for claim C1: for the closed-loop input below, the interior
vertex at index 4 has value (1,0) and zero turn angle (its neighbours are
(1,1) and (1,-1), both segments pointing straight down), yet the smoothed
point sequence does contain a point at (1,0), because the path's start point
coincides with that vertex. -/
theorem collinear_vertex_counterexample :
    (tripleList [((1 : ℝ), (0 : ℝ)), (0, 0), (0, 1), (1, 1), (1, 0), (1, -1)]).getD 3
        ((0, 0), (0, 0), (0, 0))
      = (((1 : ℝ), (1 : ℝ)), ((1 : ℝ), (0 : ℝ)), ((1 : ℝ), (-1 : ℝ))) ∧
    bendAngle ((((1 : ℝ), (0 : ℝ)) : Point) - ((1 : ℝ), (1 : ℝ)))
        ((((1 : ℝ), (-1 : ℝ)) : Point) - ((1 : ℝ), (0 : ℝ))) = 0 ∧
    ((1 : ℝ), (0 : ℝ)) ∈ smoothedPoints
      [((1 : ℝ), (0 : ℝ)), (0, 0), (0, 1), (1, 1), (1, 0), (1, -1)] (1 / 10) 1 := by
  refine ⟨by simp [tripleList], ?_, ?_⟩
  · rw [bendAngle]
    norm_num [Prod.fst_sub, Prod.snd_sub]
    exact atan2_zero_of_nonneg 1 (by norm_num)
  · simp [smoothedPoints]

/-- Claim C1 (amended): an interior vertex whose adjacent segments are
collinear with the same direction (zero turn angle: cross product 0 and
positive dot product) contributes no bend/angle/corner/offset entry, and for a
collinear triple the smoothed sequence is exactly [start, end], which contains
no point at the middle vertex; in a longer path the dropped vertex's
coordinates can still appear in the output only when the start, end, or
another vertex's bend happens to coincide with them. -/
theorem collinear_vertex_amended (before current after : Point) (radius ppr : ℝ)
    (hcross : (current - before).1 * (after - current).2
        - (current - before).2 * (after - current).1 = 0)
    (hdot : 0 < (current - before).1 * (after - current).1
        + (current - before).2 * (after - current).2) :
    smoothStep radius ppr (before, current, after) = none ∧
    smoothPath [before, current, after] radius ppr = ([], [], [], []) ∧
    smoothedPoints [before, current, after] radius ppr = [before, after] ∧
    current ∉ smoothedPoints [before, current, after] radius ppr := by
  have hstep := smoothStep_collinear before current after radius ppr hcross (le_of_lt hdot)
  have hpts : smoothedPoints [before, current, after] radius ppr = [before, after] := by
    simp [smoothedPoints, smoothItems, tripleList, hstep]
  refine ⟨hstep, by simp [smoothPath, smoothItems, tripleList, hstep], hpts, ?_⟩
  intro hmem
  rw [hpts] at hmem
  rcases List.mem_cons.mp hmem with h | h
  · subst h
    simp [Prod.fst_sub, Prod.snd_sub, sub_self] at hdot
  · rcases List.mem_singleton.mp (by simpa using h) with rfl
    simp [Prod.fst_sub, Prod.snd_sub, sub_self] at hdot

/-- Witness for the amended claim C1: three collinear points on the x-axis
satisfy the zero-turn hypotheses. -/
theorem collinear_vertex_amended_witness :
    (((((1 : ℝ), (0 : ℝ)) : Point) - ((0 : ℝ), (0 : ℝ))).1
          * ((((2 : ℝ), (0 : ℝ)) : Point) - ((1 : ℝ), (0 : ℝ))).2
        - ((((1 : ℝ), (0 : ℝ)) : Point) - ((0 : ℝ), (0 : ℝ))).2
          * ((((2 : ℝ), (0 : ℝ)) : Point) - ((1 : ℝ), (0 : ℝ))).1 = 0) ∧
    (0 < ((((1 : ℝ), (0 : ℝ)) : Point) - ((0 : ℝ), (0 : ℝ))).1
          * ((((2 : ℝ), (0 : ℝ)) : Point) - ((1 : ℝ), (0 : ℝ))).1
        + ((((1 : ℝ), (0 : ℝ)) : Point) - ((0 : ℝ), (0 : ℝ))).2
          * ((((2 : ℝ), (0 : ℝ)) : Point) - ((1 : ℝ), (0 : ℝ))).2) ∧
    (smoothStep 1 1 (((0 : ℝ), (0 : ℝ)), ((1 : ℝ), (0 : ℝ)), ((2 : ℝ), (0 : ℝ))) = none ∧
     smoothPath [((0 : ℝ), (0 : ℝ)), ((1 : ℝ), (0 : ℝ)), ((2 : ℝ), (0 : ℝ))] 1 1
       = ([], [], [], []) ∧
     smoothedPoints [((0 : ℝ), (0 : ℝ)), ((1 : ℝ), (0 : ℝ)), ((2 : ℝ), (0 : ℝ))] 1 1
       = [((0 : ℝ), (0 : ℝ)), ((2 : ℝ), (0 : ℝ))] ∧
     ((1 : ℝ), (0 : ℝ)) ∉
       smoothedPoints [((0 : ℝ), (0 : ℝ)), ((1 : ℝ), (0 : ℝ)), ((2 : ℝ), (0 : ℝ))] 1 1) :=
  ⟨by norm_num [Prod.fst_sub, Prod.snd_sub],
   by norm_num [Prod.fst_sub, Prod.snd_sub],
   collinear_vertex_amended ((0 : ℝ), (0 : ℝ)) ((1 : ℝ), (0 : ℝ)) ((2 : ℝ), (0 : ℝ)) 1 1
     (by norm_num [Prod.fst_sub, Prod.snd_sub])
     (by norm_num [Prod.fst_sub, Prod.snd_sub])⟩

theorem smoothStep_eq (radius ppr : ℝ) (b c d : Point) :
    smoothStep radius ppr (b, c, d)
      = if 0 < |bendAngle (c - b) (d - c)| then
          some
            ((arcAngles (thetaOf (c - b) (bendAngle (c - b) (d - c)))
                  (bendAngle (c - b) (d - c))
                  ((⌈|bendAngle (c - b) (d - c)| * ppr⌉).toNat + 1)).map
              (fun phi => c
                + offsetOf radius (bendAngle (c - b) (d - c))
                    (thetaOf (c - b) (bendAngle (c - b) (d - c)))
                + (radius * Real.cos phi, radius * Real.sin phi)),
             bendAngle (c - b) (d - c), c,
             offsetOf radius (bendAngle (c - b) (d - c))
               (thetaOf (c - b) (bendAngle (c - b) (d - c))))
        else none := rfl

theorem smoothItems_bend_length (points : List Point) (radius ppr : ℝ) :
    ∀ it ∈ smoothItems points radius ppr,
      it.1.length = (⌈|it.2.1| * ppr⌉).toNat + 1 ∧ 0 < |it.2.1| := by
  intro it hit
  rw [smoothItems] at hit
  obtain ⟨t, _, hstep⟩ := List.mem_filterMap.mp hit
  obtain ⟨b, c, d⟩ := t
  rw [smoothStep_eq] at hstep
  by_cases hc : 0 < |bendAngle (c - b) (d - c)|
  · rw [if_pos hc] at hstep
    obtain rfl := Option.some_injective _ hstep
    refine ⟨?_, hc⟩
    simp [arcAngles, linspace]
  · rw [if_neg hc] at hstep
    exact absurd hstep (by simp)

/-- Claim C2: the bend stored for every non-collinear interior vertex has
exactly `ceil (|angle| * points_per_radian) + 1` points (the corresponding
entry of the angles list being the vertex's bend angle), and for positive
`points_per_radian` this count is at least 2. -/
theorem bend_point_count (points : List Point) (radius ppr : ℝ) (hppr : 0 < ppr)
    (i : ℕ) (hi : i < (smoothPath points radius ppr).1.length) :
    ((smoothPath points radius ppr).1.getD i []).length
      = (⌈|(smoothPath points radius ppr).2.1.getD i 0| * ppr⌉).toNat + 1 ∧
    2 ≤ ((smoothPath points radius ppr).1.getD i []).length := by
  have hi' : i < (smoothItems points radius ppr).length := by
    simpa [smoothPath] using hi
  have hbends : (smoothPath points radius ppr).1.getD i []
      = ((smoothItems points radius ppr).get ⟨i, hi'⟩).1 := by
    simp [smoothPath, List.getD, List.getElem?_map, List.getElem?_eq_getElem hi']
  have hangles : (smoothPath points radius ppr).2.1.getD i 0
      = ((smoothItems points radius ppr).get ⟨i, hi'⟩).2.1 := by
    simp [smoothPath, List.getD, List.getElem?_map, List.getElem?_eq_getElem hi']
  have hmem : (smoothItems points radius ppr).get ⟨i, hi'⟩ ∈ smoothItems points radius ppr :=
    List.get_mem _ _ hi'
  obtain ⟨h1, h2⟩ := smoothItems_bend_length points radius ppr _ hmem
  have hceil : 1 ≤ ⌈|((smoothItems points radius ppr).get ⟨i, hi'⟩).2.1| * ppr⌉ :=
    Int.ceil_pos.mpr (mul_pos h2 hppr)
  refine ⟨by rw [hbends, hangles, h1], ?_⟩
  rw [hbends, h1]
  omega

theorem filterMap_singleton_of_some {α β : Type} (f : α → Option β) (t : α) (b : β)
    (h : f t = some b) : List.filterMap f [t] = [b] := by
  simp [h]

theorem cos_three_pi_div_two : Real.cos (3 * Real.pi / 2) = 0 := by
  rw [show (3 : ℝ) * Real.pi / 2 = Real.pi + Real.pi / 2 by ring, Real.cos_add]
  simp

theorem sin_three_pi_div_two : Real.sin (3 * Real.pi / 2) = -1 := by
  rw [show (3 : ℝ) * Real.pi / 2 = Real.pi + Real.pi / 2 by ring, Real.sin_add]
  simp

theorem cos_three_pi_div_four : Real.cos (3 * Real.pi / 4) = -(Real.sqrt 2 / 2) := by
  rw [show (3 : ℝ) * Real.pi / 4 = Real.pi - Real.pi / 4 by ring, Real.cos_pi_sub,
    Real.cos_pi_div_four]

theorem sin_three_pi_div_four : Real.sin (3 * Real.pi / 4) = Real.sqrt 2 / 2 := by
  rw [show (3 : ℝ) * Real.pi / 4 = Real.pi - Real.pi / 4 by ring, Real.sin_pi_sub,
    Real.sin_pi_div_four]

theorem offsetOf_corner (r : ℝ) :
    offsetOf r (Real.pi / 2) (3 * Real.pi / 4) = ((-r : ℝ), r) := by
  rw [offsetOf, show Real.pi / 2 / 2 = Real.pi / 4 by ring, Real.cos_pi_div_four,
    cos_three_pi_div_four, sin_three_pi_div_four]
  have h2 : Real.sqrt 2 / 2 ≠ 0 := by positivity
  rw [Prod.mk.injEq]
  constructor
  · rw [mul_neg, div_mul_cancel₀ r h2]
  · rw [div_mul_cancel₀ r h2]

theorem bendAngle_unit_corner :
    bendAngle (((1 : ℝ), (0 : ℝ)) : Point) (((0 : ℝ), (1 : ℝ)) : Point) = Real.pi / 2 := by
  rw [bendAngle]
  norm_num
  exact atan2_of_pos_up 1 one_pos

theorem thetaOf_corner : thetaOf (((1 : ℝ), (0 : ℝ)) : Point) (Real.pi / 2)
    = 3 * Real.pi / 4 := by
  rw [thetaOf]
  rw [show ((((1 : ℝ), (0 : ℝ)) : Point)).2 = (0 : ℝ) from rfl,
    show ((((1 : ℝ), (0 : ℝ)) : Point)).1 = (1 : ℝ) from rfl,
    atan2_zero_of_nonneg 1 zero_le_one,
    Real.sign_of_pos Real.pi_div_two_pos]
  ring

theorem smoothItems_corner (r d : ℝ) :
    smoothItems [((0 : ℝ), (0 : ℝ)), (1, 0), (1, 1)] r d
      = [((arcAngles (3 * Real.pi / 4) (Real.pi / 2) ((⌈Real.pi / 2 * d⌉).toNat + 1)).map
            (fun phi => (((1 : ℝ), (0 : ℝ)) : Point) + ((-r : ℝ), r)
              + (r * Real.cos phi, r * Real.sin phi)),
          Real.pi / 2, ((1 : ℝ), (0 : ℝ)), ((-r : ℝ), r))] := by
  have hsub1 : (((1 : ℝ), (0 : ℝ)) : Point) - ((0 : ℝ), (0 : ℝ)) = ((1 : ℝ), (0 : ℝ)) := by
    simp [Prod.ext_iff, Prod.fst_sub, Prod.snd_sub]
  have hsub2 : (((1 : ℝ), (1 : ℝ)) : Point) - ((1 : ℝ), (0 : ℝ)) = ((0 : ℝ), (1 : ℝ)) := by
    simp [Prod.ext_iff, Prod.fst_sub, Prod.snd_sub]
  have htr : tripleList [((0 : ℝ), (0 : ℝ)), (1, 0), (1, 1)]
      = [(((0 : ℝ), (0 : ℝ)), ((1 : ℝ), (0 : ℝ)), ((1 : ℝ), (1 : ℝ)))] := by
    simp [tripleList]
  have hstep : smoothStep r d (((0 : ℝ), (0 : ℝ)), ((1 : ℝ), (0 : ℝ)), ((1 : ℝ), (1 : ℝ)))
      = some
          ((arcAngles (3 * Real.pi / 4) (Real.pi / 2) ((⌈Real.pi / 2 * d⌉).toNat + 1)).map
            (fun phi => (((1 : ℝ), (0 : ℝ)) : Point) + ((-r : ℝ), r)
              + (r * Real.cos phi, r * Real.sin phi)),
           Real.pi / 2, ((1 : ℝ), (0 : ℝ)), ((-r : ℝ), r)) := by
    rw [smoothStep_eq, hsub1, hsub2, bendAngle_unit_corner, thetaOf_corner, offsetOf_corner,
      abs_of_pos Real.pi_div_two_pos, if_pos Real.pi_div_two_pos]
  rw [smoothItems, htr]
  exact filterMap_singleton_of_some _ _ _ hstep

/-- Witness for claim C2: the right-angle corner [(0,0),(1,0),(1,1)] with
radius 1 and one point per radian; its bends list is nonempty and the
points-per-radian value is positive. -/
theorem bend_point_count_witness :
    (0 : ℝ) < 1 ∧
    0 < (smoothPath [((0 : ℝ), (0 : ℝ)), (1, 0), (1, 1)] 1 1).1.length ∧
    (((smoothPath [((0 : ℝ), (0 : ℝ)), (1, 0), (1, 1)] 1 1).1.getD 0 []).length
        = (⌈|(smoothPath [((0 : ℝ), (0 : ℝ)), (1, 0), (1, 1)] 1 1).2.1.getD 0 0| * 1⌉).toNat
            + 1 ∧
      2 ≤ ((smoothPath [((0 : ℝ), (0 : ℝ)), (1, 0), (1, 1)] 1 1).1.getD 0 []).length) := by
  have hlen : 0 < (smoothPath [((0 : ℝ), (0 : ℝ)), (1, 0), (1, 1)] 1 1).1.length := by
    simp only [smoothPath]
    rw [smoothItems_corner]
    norm_num
  exact ⟨one_pos, hlen, bend_point_count [((0 : ℝ), (0 : ℝ)), (1, 0), (1, 1)] 1 1 one_pos 0 hlen⟩

/-- Claim C3: for the 90-degree corner [(0,0),(1,0),(1,1)] smoothed with
radius r > 0 (any positive points-per-radian), the bend angle is pi/2, the arc
center offset is (-r, r), the first and last arc points are (1-r, 0) and
(1, r) — at distance r from the corner (1,0) along the incoming and outgoing
segments — and the arc is tangent to both segments: the first and last sampled
arc angles are 3 pi/2 and 2 pi, where the arc's unit tangent equals the
incoming direction (1,0) and the outgoing direction (0,1) respectively. -/
theorem corner_arc_tangency (r d : ℝ) (hr : 0 < r) (hd : 0 < d) :
    (smoothPath [((0 : ℝ), (0 : ℝ)), (1, 0), (1, 1)] r d).2.1 = [Real.pi / 2] ∧
    (smoothPath [((0 : ℝ), (0 : ℝ)), (1, 0), (1, 1)] r d).2.2.1 = [((1 : ℝ), (0 : ℝ))] ∧
    (smoothPath [((0 : ℝ), (0 : ℝ)), (1, 0), (1, 1)] r d).2.2.2 = [((-r : ℝ), r)] ∧
    (smoothPath [((0 : ℝ), (0 : ℝ)), (1, 0), (1, 1)] r d).1
      = [(arcAngles (3 * Real.pi / 4) (Real.pi / 2) ((⌈Real.pi / 2 * d⌉).toNat + 1)).map
          (fun phi => (((1 : ℝ), (0 : ℝ)) : Point) + ((-r : ℝ), r)
            + (r * Real.cos phi, r * Real.sin phi))] ∧
    ((smoothPath [((0 : ℝ), (0 : ℝ)), (1, 0), (1, 1)] r d).1.getD 0 []).head?
      = some ((1 - r, 0) : Point) ∧
    ((smoothPath [((0 : ℝ), (0 : ℝ)), (1, 0), (1, 1)] r d).1.getD 0 []).getLast?
      = some ((1, r) : Point) ∧
    Real.sqrt ((1 - r - 1) ^ 2 + ((0 : ℝ) - 0) ^ 2) = r ∧
    Real.sqrt (((1 : ℝ) - 1) ^ 2 + (r - 0) ^ 2) = r ∧
    (arcAngles (3 * Real.pi / 4) (Real.pi / 2) ((⌈Real.pi / 2 * d⌉).toNat + 1)).head?
      = some (3 * Real.pi / 2) ∧
    (arcAngles (3 * Real.pi / 4) (Real.pi / 2) ((⌈Real.pi / 2 * d⌉).toNat + 1)).getLast?
      = some (2 * Real.pi) ∧
    unitTangent (3 * Real.pi / 2) = ((1 : ℝ), (0 : ℝ)) ∧
    unitTangent (2 * Real.pi) = ((0 : ℝ), (1 : ℝ)) := by
  have hitems := smoothItems_corner r d
  have hn2 : 2 ≤ (⌈Real.pi / 2 * d⌉).toNat + 1 := by
    have h1 : (0 : ℝ) < Real.pi / 2 * d := mul_pos Real.pi_div_two_pos hd
    have h2 := Int.ceil_pos.mpr h1
    omega
  have hhead : (arcAngles (3 * Real.pi / 4) (Real.pi / 2) ((⌈Real.pi / 2 * d⌉).toNat + 1)).head?
      = some (3 * Real.pi / 2) := by
    rw [arcAngles, List.head?_map, linspace_head? _ _ _ (by omega)]
    simp only [Option.map_some']
    congr 1
    ring
  have hlast : (arcAngles (3 * Real.pi / 4) (Real.pi / 2)
        ((⌈Real.pi / 2 * d⌉).toNat + 1)).getLast? = some (2 * Real.pi) := by
    rw [arcAngles, List.getLast?_map, linspace_getLast? _ _ _ hn2]
    simp only [Option.map_some']
    congr 1
    ring
  have hbend : (smoothPath [((0 : ℝ), (0 : ℝ)), (1, 0), (1, 1)] r d).1
      = [(arcAngles (3 * Real.pi / 4) (Real.pi / 2) ((⌈Real.pi / 2 * d⌉).toNat + 1)).map
          (fun phi => (((1 : ℝ), (0 : ℝ)) : Point) + ((-r : ℝ), r)
            + (r * Real.cos phi, r * Real.sin phi))] := by
    simp only [smoothPath]
    rw [hitems]
    rfl
  have hgetD : (smoothPath [((0 : ℝ), (0 : ℝ)), (1, 0), (1, 1)] r d).1.getD 0 []
      = (arcAngles (3 * Real.pi / 4) (Real.pi / 2) ((⌈Real.pi / 2 * d⌉).toNat + 1)).map
          (fun phi => (((1 : ℝ), (0 : ℝ)) : Point) + ((-r : ℝ), r)
            + (r * Real.cos phi, r * Real.sin phi)) := by
    rw [hbend]
    rfl
  have hfirstPoint : (((1 : ℝ), (0 : ℝ)) : Point) + ((-r : ℝ), r)
      + (r * Real.cos (3 * Real.pi / 2), r * Real.sin (3 * Real.pi / 2)) = (1 - r, 0) := by
    rw [cos_three_pi_div_two, sin_three_pi_div_two, Prod.mk_add_mk, Prod.mk_add_mk,
      Prod.mk.injEq]
    refine ⟨by ring, by ring⟩
  have hlastPoint : (((1 : ℝ), (0 : ℝ)) : Point) + ((-r : ℝ), r)
      + (r * Real.cos (2 * Real.pi), r * Real.sin (2 * Real.pi)) = (1, r) := by
    rw [Real.cos_two_pi, Real.sin_two_pi, Prod.mk_add_mk, Prod.mk_add_mk, Prod.mk.injEq]
    refine ⟨by ring, by ring⟩
  refine ⟨?_, ?_, ?_, hbend, ?_, ?_, ?_, ?_, hhead, hlast, ?_, ?_⟩
  · simp only [smoothPath]
    rw [hitems]
    rfl
  · simp only [smoothPath]
    rw [hitems]
    rfl
  · simp only [smoothPath]
    rw [hitems]
    rfl
  · rw [hgetD, List.head?_map, hhead, Option.map_some', hfirstPoint]
  · rw [hgetD, List.getLast?_map, hlast, Option.map_some', hlastPoint]
  · rw [show ((1 : ℝ) - r - 1) ^ 2 + ((0 : ℝ) - 0) ^ 2 = r ^ 2 by ring, Real.sqrt_sq hr.le]
  · rw [show (((1 : ℝ) - 1) ^ 2 + (r - 0) ^ 2 : ℝ) = r ^ 2 by ring, Real.sqrt_sq hr.le]
  · rw [unitTangent, sin_three_pi_div_two, cos_three_pi_div_two, Prod.mk.injEq]
    norm_num
  · rw [unitTangent, Real.sin_two_pi, Real.cos_two_pi, Prod.mk.injEq]
    norm_num

/-- Witness for claim C3: the corner smoothed with radius 1/2 and one point
per radian satisfies both positivity hypotheses. -/
theorem corner_arc_tangency_witness :
    ((0 : ℝ) < 1 / 2 ∧ (0 : ℝ) < 1) ∧
    ((smoothPath [((0 : ℝ), (0 : ℝ)), (1, 0), (1, 1)] (1 / 2) 1).2.1 = [Real.pi / 2] ∧
     (smoothPath [((0 : ℝ), (0 : ℝ)), (1, 0), (1, 1)] (1 / 2) 1).2.2.1
       = [((1 : ℝ), (0 : ℝ))] ∧
     (smoothPath [((0 : ℝ), (0 : ℝ)), (1, 0), (1, 1)] (1 / 2) 1).2.2.2
       = [((-(1 / 2) : ℝ), 1 / 2)] ∧
     (smoothPath [((0 : ℝ), (0 : ℝ)), (1, 0), (1, 1)] (1 / 2) 1).1
       = [(arcAngles (3 * Real.pi / 4) (Real.pi / 2) ((⌈Real.pi / 2 * 1⌉).toNat + 1)).map
           (fun phi => (((1 : ℝ), (0 : ℝ)) : Point) + ((-(1 / 2) : ℝ), 1 / 2)
             + (1 / 2 * Real.cos phi, 1 / 2 * Real.sin phi))] ∧
     ((smoothPath [((0 : ℝ), (0 : ℝ)), (1, 0), (1, 1)] (1 / 2) 1).1.getD 0 []).head?
       = some ((1 - 1 / 2, 0) : Point) ∧
     ((smoothPath [((0 : ℝ), (0 : ℝ)), (1, 0), (1, 1)] (1 / 2) 1).1.getD 0 []).getLast?
       = some ((1, 1 / 2) : Point) ∧
     Real.sqrt ((1 - 1 / 2 - 1) ^ 2 + ((0 : ℝ) - 0) ^ 2) = 1 / 2 ∧
     Real.sqrt (((1 : ℝ) - 1) ^ 2 + (1 / 2 - 0) ^ 2) = 1 / 2 ∧
     (arcAngles (3 * Real.pi / 4) (Real.pi / 2) ((⌈Real.pi / 2 * 1⌉).toNat + 1)).head?
       = some (3 * Real.pi / 2) ∧
     (arcAngles (3 * Real.pi / 4) (Real.pi / 2) ((⌈Real.pi / 2 * 1⌉).toNat + 1)).getLast?
       = some (2 * Real.pi) ∧
     unitTangent (3 * Real.pi / 2) = ((1 : ℝ), (0 : ℝ)) ∧
     unitTangent (2 * Real.pi) = ((0 : ℝ), (1 : ℝ))) :=
  ⟨⟨by norm_num, by norm_num⟩,
   corner_arc_tangency (1 / 2) 1 (by norm_num) (by norm_num)⟩
